import Mathlib

/-!
Verification of the core logic of the mindquest2 app (src/app.py):
the similarity matcher and kai deduplicator, the scoring engine
(raw scores, bonus merging, top-type selection), the quest step
normalizer, and the quest progress state machine.

Python values are embedded shallowly: machine floats returned by the
similarity matcher are modelled as rationals, Python ints as Int/Nat,
Python strings as Lean strings, and loosely typed JSON-ish data as an
explicit inductive type. Python functions that can raise are modelled
with Option or Except.
-/

/-- Characters treated as whitespace by the Python str.strip() calls in
the source (modelled for the ASCII whitespace characters). -/
def isspace (c : Char) : Bool :=
  c = ' ' || c = '\t' || c = '\n' || c = '\r'

/-- Python str.strip(): remove leading and trailing whitespace.
Modelled structurally on the character list so that it is computable
by the kernel. -/
def pyStrip (s : String) : String :=
  String.mk (((s.data.dropWhile isspace).reverse.dropWhile isspace).reverse)

/-- Fuel-indexed length of a longest common subsequence of two
character lists. The fuel argument makes the recursion structural;
lcsLen supplies enough fuel. -/
def lcsLenF : Nat → List Char → List Char → Nat
  | 0, _, _ => 0
  | _ + 1, [], _ => 0
  | _ + 1, _ :: _, [] => 0
  | fuel + 1, a :: as, b :: bs =>
      if a = b then lcsLenF fuel as bs + 1
      else max (lcsLenF fuel (a :: as) bs) (lcsLenF fuel as (b :: bs))

/-- Length of a longest common subsequence of two character lists. -/
def lcsLen (xs ys : List Char) : Nat :=
  lcsLenF (xs.length + ys.length) xs ys

/-- Modelled from the spec: the body of _similarity (src/app.py lines
237-239) delegates to difflib.SequenceMatcher.ratio, whose source is
not part of this repository. Per the spec (section 4.1) the ratio is
twice the number of matching characters of a longest common aligned
subsequence matching, divided by the combined length of both strings;
difflib returns 1.0 when both strings are empty. The float result is
modelled as a rational. -/
def _similarity (a b : String) : ℚ :=
  if a.data.length + b.data.length = 0 then 1
  else mkRat (2 * (lcsLen a.data b.data : Int)) (a.data.length + b.data.length)

/-- A KaiLog row as the deduplicator sees it: the habit phrase and its
repetition count (src/app.py, KaiLog model). -/
structure KaiLog where
  name : String
  count : Nat
deriving DecidableEq, Repr

/-- The scan loop of find_similar_kai (src/app.py lines 252-259):
walk the list keeping the best log and best score so far, updating
only on a strictly greater score. The Nat argument tracks the
position of each log so that the caller of the batch loop can update
the chosen row in place. -/
def scanBest (target : String) : List KaiLog → Nat → Option (Nat × KaiLog) → ℚ →
    Option (Nat × KaiLog) × ℚ
  | [], _, best, bestScore => (best, bestScore)
  | log :: rest, i, best, bestScore =>
      if bestScore < _similarity log.name target then
        scanBest target rest (i + 1) (some (i, log)) (_similarity log.name target)
      else
        scanBest target rest (i + 1) best bestScore

/-- find_similar_kai (src/app.py lines 242-263), with the position of
the returned row exposed: strip the candidate, return none when it is
blank, otherwise scan all logs starting from best score 0.0 and no
best log, and return the best log only when one was picked and its
score reached the threshold. -/
def find_similar_idx (logs : List KaiLog) (name : String) (threshold : ℚ) :
    Option (Nat × KaiLog) :=
  let name := pyStrip name
  if name = "" then none
  else
    match scanBest name logs 0 none 0 with
    | (some (i, log), bestScore) =>
        if threshold ≤ bestScore then some (i, log) else none
    | (none, _) => none

/-- find_similar_kai as the source returns it: just the row. -/
def find_similar_kai (logs : List KaiLog) (name : String) (threshold : ℚ) :
    Option KaiLog :=
  (find_similar_idx logs name threshold).map Prod.snd

/-- Replace the element at a position of a list by applying f to it;
out-of-range positions leave the list unchanged. Models the in-place
mutation of the chosen KaiLog row. -/
def modifyAt : List KaiLog → Nat → (KaiLog → KaiLog) → List KaiLog
  | [], _, _ => []
  | x :: xs, 0, f => f x :: xs
  | x :: xs, n + 1, f => x :: modifyAt xs n f

/-- The batch kai loop of journal_save (src/app.py lines 1501-1530):
for each candidate phrase, strip it, skip it when blank, look for a
similar existing log at threshold 0.7; when found increment that row
count, otherwise append a fresh row with count 1 so that later
candidates of the same batch are compared against it too. -/
def processKai : List KaiLog → List String → List KaiLog
  | logs, [] => logs
  | logs, raw :: rest =>
      let name := pyStrip raw
      if name = "" then processKai logs rest
      else
        match find_similar_idx logs name (mkRat 7 10) with
        | some (i, _) =>
            processKai (modifyAt logs i (fun l => { l with count := l.count + 1 })) rest
        | none => processKai (logs ++ [{ name := name, count := 1 }]) rest

/-- The fixed, closed enumeration of the 8 type keys, in the declared
canonical order (src/app.py lines 269-278). -/
inductive TypeKey
  | sage
  | monk
  | priest
  | mage
  | thief
  | artist
  | guardian
  | commander
deriving DecidableEq, Repr

/-- TYPE_KEYS (src/app.py lines 269-278): the enumeration as the
ordered list used for iteration and for the insertion order of every
score mapping. -/
def TYPE_KEYS : List TypeKey :=
  [TypeKey.sage, TypeKey.monk, TypeKey.priest, TypeKey.mage,
   TypeKey.thief, TypeKey.artist, TypeKey.guardian, TypeKey.commander]

/-- CHOICE_TO_SCORE (src/app.py lines 356-361) as an association
list. -/
def CHOICE_TO_SCORE : List (String × Nat) :=
  [("yes", 3), ("maybe", 1), ("neutral", 1), ("no", 0)]

/-- CHOICE_TO_SCORE.get(label, 0): dictionary lookup with default
weight 0 for unknown labels (src/app.py line 779). -/
def choiceScore (s : String) : Nat :=
  (CHOICE_TO_SCORE.lookup s).getD 0

/-- QUESTION_TYPES (src/app.py lines 398-431): the per-question type
assignment, four questions per type in enumeration order. -/
def QUESTION_TYPES : List TypeKey :=
  [TypeKey.sage, TypeKey.sage, TypeKey.sage, TypeKey.sage,
   TypeKey.monk, TypeKey.monk, TypeKey.monk, TypeKey.monk,
   TypeKey.priest, TypeKey.priest, TypeKey.priest, TypeKey.priest,
   TypeKey.mage, TypeKey.mage, TypeKey.mage, TypeKey.mage,
   TypeKey.thief, TypeKey.thief, TypeKey.thief, TypeKey.thief,
   TypeKey.artist, TypeKey.artist, TypeKey.artist, TypeKey.artist,
   TypeKey.guardian, TypeKey.guardian, TypeKey.guardian, TypeKey.guardian,
   TypeKey.commander, TypeKey.commander, TypeKey.commander, TypeKey.commander]

/-- Number of entries of the QUESTIONS list (src/app.py lines
363-396): 32 question texts; only the count matters for scoring. -/
def NUM_QUESTIONS : Nat := 32

/-- The type key a question index is scored under (src/app.py lines
780-783): the QUESTION_TYPES entry when the index is in range, else
the TYPE_KEYS entry at index mod 8. -/
def assignType (i : Nat) : TypeKey :=
  if h : i < QUESTION_TYPES.length then QUESTION_TYPES.get ⟨i, h⟩
  else TYPE_KEYS.get ⟨i % TYPE_KEYS.length, Nat.mod_lt _ (by decide)⟩

/-- The raw score loop (src/app.py lines 777-784): every type starts
at 0 and each question index accumulates the weight of its answer into
its assigned type. answers models answers_raw: the form value of
question i, with missing fields already defaulted to the string no by
request.form.get. -/
def rawScores (numQ : Nat) (answers : Nat → String) : TypeKey → Nat :=
  (List.range numQ).foldl
    (fun m i => Function.update m (assignType i) (m (assignType i) + choiceScore (answers i)))
    (fun _ => 0)

/-- One value of the bonus_scores object after the whole-object JSON
conversion, as seen by the Python int() coercion at src/app.py line
829: either int() succeeds and yields an integer, or it raises. -/
inductive BonusVal
  | ival (n : Int)
  | bad
deriving DecidableEq, Repr

/-- The shape of the external bonus candidate (src/app.py lines
824-825): the collaborator may return nothing usable (no data or no
bonus_scores key), a bonus_scores value that is not a dictionary (so
that the .get call raises inside the try block), or a dictionary
mapping each type key to an optional value. -/
inductive BonusData
  | absent
  | notDict
  | dict (f : TypeKey → Option BonusVal)

/-- Reading one type key from the candidate dictionary (src/app.py
line 829): a missing key defaults to 0 before int() is applied, a
present value either coerces or raises. -/
def coerceBonus : Option BonusVal → Except Unit Int
  | none => Except.ok 0
  | some (BonusVal.ival n) => Except.ok n
  | some BonusVal.bad => Except.error ()

/-- The clamp of src/app.py lines 830-833: below 0 becomes 0, above 5
becomes 5. -/
def clamp05 (n : Int) : Int :=
  if n < 0 then 0 else if n > 5 then 5 else n

/-- The loop body of src/app.py lines 827-835 over the remaining type
keys, threading the bonus and final score mappings and stopping at the
first coercion failure, as the try block does. -/
def bonusLoopAux (raw : TypeKey → Int) (d : TypeKey → Option BonusVal) :
    List TypeKey → (TypeKey → Int) → (TypeKey → Int) →
    Except Unit ((TypeKey → Int) × (TypeKey → Int))
  | [], bonus, final => Except.ok (bonus, final)
  | k :: ks, bonus, final =>
      match coerceBonus (d k) with
      | Except.error e => Except.error e
      | Except.ok n =>
          let v := clamp05 n
          bonusLoopAux raw d ks (Function.update bonus k v)
            (Function.update final k (raw k + v))

/-- applyBonus (src/app.py lines 786-847): the bonus starts all zero
and the final scores start as a copy of the raw scores; with a usable
dictionary the loop over TYPE_KEYS fills both, and any exception while
reading or coercing resets both to all zero bonus and final equal to
raw, exactly as the except branch at lines 836-839 does. -/
def applyBonus (raw : TypeKey → Int) : BonusData →
    (TypeKey → Int) × (TypeKey → Int)
  | BonusData.absent => (fun _ => 0, raw)
  | BonusData.notDict => (fun _ => 0, raw)
  | BonusData.dict d =>
      match bonusLoopAux raw d TYPE_KEYS (fun _ => 0) raw with
      | Except.ok r => r
      | Except.error _ => (fun _ => 0, raw)

/-- The fold of the Python builtin max over the remaining iteration
keys with the running best key (src/app.py line 850): max keeps the
current best unless a later key compares strictly greater. -/
def pyMaxFrom (final : TypeKey → Int) : TypeKey → List TypeKey → TypeKey
  | best, [] => best
  | best, k :: ks =>
      pyMaxFrom final (if final best < final k then k else best) ks

/-- top_type (src/app.py line 850): max over the final score mapping,
whose iteration order is the TYPE_KEYS insertion order, so the fold
starts at sage and scans the remaining seven keys. -/
def pickTopType (final : TypeKey → Int) : TypeKey :=
  pyMaxFrom final TypeKey.sage
    [TypeKey.monk, TypeKey.priest, TypeKey.mage, TypeKey.thief,
     TypeKey.artist, TypeKey.guardian, TypeKey.commander]

/-- A Python value as the step normalizer can meet it in the
steps_json payload: string, integer, boolean, None, list, or
dictionary with string keys. Machine floats do not occur in the
claims under verification and are not modelled. -/
inductive PyVal
  | pstr (s : String)
  | pint (n : Int)
  | pbool (b : Bool)
  | pnone
  | plist (xs : List PyVal)
  | pdict (fields : List (String × PyVal))

/-- Python truthiness for the modelled values: empty string, zero,
False, None, empty list and empty dictionary are falsy. -/
def truthy : PyVal → Bool
  | PyVal.pstr s => s ≠ ""
  | PyVal.pint n => n ≠ 0
  | PyVal.pbool b => b
  | PyVal.pnone => false
  | PyVal.plist [] => false
  | PyVal.plist (_ :: _) => true
  | PyVal.pdict [] => false
  | PyVal.pdict (_ :: _) => true

/-- Python a or b: the left value when truthy, else the right. -/
def pyOr (a b : PyVal) : PyVal :=
  if truthy a then a else b

/-- Python dict.get(key): the first binding of the key, None when the
key is missing. -/
def dictGet (fs : List (String × PyVal)) (key : String) : PyVal :=
  ((fs.lookup key).getD PyVal.pnone)

/-- Python equality comparison of a value against a string literal:
only an equal string compares equal; values of other types are never
equal to a string. -/
def pyEqStr (v : PyVal) (s : String) : Bool :=
  match v with
  | PyVal.pstr t => t = s
  | _ => false

/-- Parse the digits of a Python int literal; none when a non-digit
occurs or the digit list is empty. -/
def digitsToNat : List Char → Option Nat
  | [] => none
  | cs => cs.foldl
      (fun acc c => match acc with
        | none => none
        | some n => if c.isDigit then some (n * 10 + (c.toNat - 48)) else none)
      (some 0)

/-- Python int(string): surrounding whitespace is allowed, then an
optional sign and a nonempty digit run; anything else raises.
Underscore digit separators are not modelled. -/
def pyIntOfString (s : String) : Option Int :=
  match (pyStrip s).data with
  | '-' :: cs => (digitsToNat cs).map (fun n => -(n : Int))
  | '+' :: cs => (digitsToNat cs).map (fun n => (n : Int))
  | cs => (digitsToNat cs).map (fun n => (n : Int))

/-- Python int(v) over the modelled values: ints pass through, booleans
become 0 or 1, strings parse as integer literals, and None, lists and
dictionaries raise (none). -/
def pyToInt : PyVal → Option Int
  | PyVal.pint n => some n
  | PyVal.pbool b => some (if b then 1 else 0)
  | PyVal.pstr s => pyIntOfString s
  | _ => none

/-- Python str.splitlines() as used for a newline-joined options
string (src/app.py lines 1251-1256), followed by strip and the
non-empty filter: modelled for the newline separator. -/
def splitlinesPy (s : String) : List String :=
  ((s.data.splitOn '\n').map (fun cs => pyStrip (String.mk cs))).filter
    (fun o => o ≠ "")

/-- The canonical step record built at src/app.py lines 1281-1288.
The title keeps whatever value the alias resolution produced; the
kind is one of the three strings after rounding; the grid dimensions
are the coerced integers; options is the resolved list. -/
structure CanonicalStep where
  title : PyVal
  kind : String
  grid_rows : Int
  grid_cols : Int
  options : List PyVal

/-- The declared kind of a structured step before inference
(src/app.py lines 1225-1229). -/
def resolvedKind (fs : List (String × PyVal)) : PyVal :=
  pyOr (dictGet fs "type") (pyOr (dictGet fs "step_type") (PyVal.pstr "text"))

/-- The raw grid row value before coercion (src/app.py lines
1231-1236). -/
def resolvedRows (fs : List (String × PyVal)) : PyVal :=
  pyOr (dictGet fs "grid_rows")
    (pyOr (dictGet fs "rows") (pyOr (dictGet fs "row") (PyVal.pint 0)))

/-- The raw grid column value before coercion (src/app.py lines
1237-1242). -/
def resolvedCols (fs : List (String × PyVal)) : PyVal :=
  pyOr (dictGet fs "grid_cols")
    (pyOr (dictGet fs "cols") (pyOr (dictGet fs "col") (PyVal.pint 0)))

/-- The options resolution of src/app.py lines 1244-1258: first truthy
alias, a string is split into trimmed non-empty lines, and anything
that is not a list at that point becomes the empty list. -/
def resolvedOptions (fs : List (String × PyVal)) : List PyVal :=
  match pyOr (dictGet fs "options")
      (pyOr (dictGet fs "choices") (pyOr (dictGet fs "choice") (PyVal.plist []))) with
  | PyVal.pstr s => (splitlinesPy s).map PyVal.pstr
  | PyVal.plist xs => xs
  | _ => []

/-- The integer coercion of a grid dimension (src/app.py lines
1261-1268): falsy values give 0, and an int() failure is caught and
gives 0. -/
def coerceDim (v : PyVal) : Int :=
  if truthy v then (pyToInt v).getD 0 else 0

/-- The title alias resolution of src/app.py lines 1218-1223. -/
def resolvedTitle (fs : List (String × PyVal)) : PyVal :=
  pyOr (dictGet fs "title")
    (pyOr (dictGet fs "step_title") (pyOr (dictGet fs "label") (PyVal.pstr "")))

/-- The kind inference of src/app.py lines 1270-1275: a declared text
kind becomes choice when options are present, else grid when both
coerced dimensions are positive; otherwise the declared kind stands. -/
def inferredKind (fs : List (String × PyVal)) : PyVal :=
  if (resolvedOptions fs).isEmpty = false ∧ pyEqStr (resolvedKind fs) "text" = true then
    PyVal.pstr "choice"
  else if coerceDim (resolvedRows fs) > 0 ∧ coerceDim (resolvedCols fs) > 0
      ∧ pyEqStr (resolvedKind fs) "text" = true then
    PyVal.pstr "grid"
  else resolvedKind fs

/-- The final rounding of src/app.py lines 1277-1279: any value of the
inferred kind outside the three recognized strings becomes text. -/
def roundKind (v : PyVal) : String :=
  match v with
  | PyVal.pstr t => if t = "text" ∨ t = "grid" ∨ t = "choice" then t else "text"
  | _ => "text"

/-- The canonical step built from one structured record (src/app.py
lines 1217-1288). -/
def stepOfDict (fs : List (String × PyVal)) : CanonicalStep :=
  { title := resolvedTitle fs,
    kind := roundKind (inferredKind fs),
    grid_rows := coerceDim (resolvedRows fs),
    grid_cols := coerceDim (resolvedCols fs),
    options := resolvedOptions fs }

/-- Normalization of one raw step entry (src/app.py lines 1202-1289):
a bare string becomes a text step, a dictionary goes through alias
resolution, coercion, kind inference and rounding, and any other
entry is skipped. -/
def normalizeStep : PyVal → Option CanonicalStep
  | PyVal.pstr s =>
      some { title := PyVal.pstr s, kind := "text", grid_rows := 0,
             grid_cols := 0, options := [] }
  | PyVal.pdict fs => some (stepOfDict fs)
  | _ => none

/-- The full normalizer (src/app.py lines 1197-1289): steps_json or []
followed by the isinstance list check; non-list payloads produce no
steps, and unrecognized entries are dropped. -/
def normalizeSteps (raw : PyVal) : List CanonicalStep :=
  match pyOr raw (PyVal.plist []) with
  | PyVal.plist xs => xs.filterMap normalizeStep
  | _ => []

/-- The progress states of a quest (src/app.py, QuestProgress.status). -/
inductive PStatus
  | not_started
  | in_progress
  | completed
deriving DecidableEq, Repr

/-- A QuestProgress row as the state machine sees it; timestamps are
modelled as abstract instants. -/
structure Progress where
  status : PStatus
  started_at : Option Nat
  completed_at : Option Nat
deriving DecidableEq, Repr

/-- The GET branch of quest_do (src/app.py lines 1331-1335): only a
not started row moves to in progress, with its start timestamp set to
now; any other status leaves the row unchanged. -/
def openQ (now : Nat) (p : Progress) : Progress :=
  if p.status = PStatus.not_started then
    { status := PStatus.in_progress, started_at := some now,
      completed_at := p.completed_at }
  else p

/-- The POST branch of quest_do (src/app.py lines 1292-1298): always
set completed, back-fill the start timestamp when unset, and refresh
the completion timestamp. -/
def completeQ (now : Nat) (p : Progress) : Progress :=
  { status := PStatus.completed,
    started_at := if p.started_at = none then some now else p.started_at,
    completed_at := some now }

/-- Position of a type key in the canonical TYPE_KEYS enumeration. -/
def typeIdx : TypeKey → Nat
  | TypeKey.sage => 0
  | TypeKey.monk => 1
  | TypeKey.priest => 2
  | TypeKey.mage => 3
  | TypeKey.thief => 4
  | TypeKey.artist => 5
  | TypeKey.guardian => 6
  | TypeKey.commander => 7

/-- Total of a score mapping over the 8 type keys. -/
def sumScores (m : TypeKey → Nat) : Nat :=
  (TYPE_KEYS.map m).sum

/-- The integer a successful int() coercion of one bonus candidate
value yields: a missing key defaults to 0, a present integer value is
itself. Only meaningful when the value is not a coercion failure. -/
def bonusValue : Option BonusVal → Int
  | none => 0
  | some (BonusVal.ival n) => n
  | some BonusVal.bad => 0
theorem lcsLenF_le_left (f : Nat) (xs ys : List Char) :
    lcsLenF f xs ys ≤ xs.length := by
  induction f generalizing xs ys with
  | zero => simp [lcsLenF]
  | succ f ih =>
    cases xs with
    | nil => simp [lcsLenF]
    | cons a as =>
      cases ys with
      | nil => simp [lcsLenF]
      | cons b bs =>
        simp only [lcsLenF]
        by_cases h : a = b
        · simp only [if_pos h, List.length_cons]
          exact Nat.succ_le_succ (ih as bs)
        · simp only [if_neg h]
          refine max_le (ih (a :: as) bs) ?_
          exact le_trans (ih as (b :: bs)) (by simp)

theorem lcsLenF_comm (f : Nat) (xs ys : List Char) :
    lcsLenF f xs ys = lcsLenF f ys xs := by
  induction f generalizing xs ys with
  | zero => simp [lcsLenF]
  | succ f ih =>
    cases xs with
    | nil => cases ys <;> simp [lcsLenF]
    | cons a as =>
      cases ys with
      | nil => simp [lcsLenF]
      | cons b bs =>
        simp only [lcsLenF]
        by_cases h : a = b
        · rw [if_pos h, if_pos h.symm, ih as bs]
        · rw [if_neg h, if_neg (fun hba => h hba.symm)]
          rw [ih (a :: as) bs, ih as (b :: bs), Nat.max_comm]

theorem lcsLenF_le_right (f : Nat) (xs ys : List Char) :
    lcsLenF f xs ys ≤ ys.length := by
  rw [lcsLenF_comm]
  exact lcsLenF_le_left f ys xs

theorem lcsLenF_self (f : Nat) (xs : List Char) (hf : 2 * xs.length ≤ f) :
    lcsLenF f xs xs = xs.length := by
  induction f generalizing xs with
  | zero =>
    cases xs with
    | nil => simp [lcsLenF]
    | cons a as =>
      exfalso
      simp only [List.length_cons] at hf
      omega
  | succ f ih =>
    cases xs with
    | nil => simp [lcsLenF]
    | cons a as =>
      have h1 : lcsLenF (f + 1) (a :: as) (a :: as) = lcsLenF f as as + 1 := by
        simp [lcsLenF]
      have h2 : 2 * as.length ≤ f := by
        simp only [List.length_cons] at hf
        omega
      rw [h1, ih as h2]
      simp

theorem lcsLenF_disjoint (f : Nat) (xs ys : List Char)
    (h : ∀ c ∈ xs, c ∉ ys) : lcsLenF f xs ys = 0 := by
  induction f generalizing xs ys with
  | zero => simp [lcsLenF]
  | succ f ih =>
    cases xs with
    | nil => simp [lcsLenF]
    | cons a as =>
      cases ys with
      | nil => simp [lcsLenF]
      | cons b bs =>
        have hab : a ≠ b := by
          intro hab
          exact h a (by simp) (by simp [hab])
        simp only [lcsLenF, if_neg hab]
        rw [ih (a :: as) bs (fun c hc hcb => h c hc (by simp [hcb])),
          ih as (b :: bs) (fun c hc => h c (by simp [hc]))]
        simp

theorem lcsLen_comm (xs ys : List Char) : lcsLen xs ys = lcsLen ys xs := by
  unfold lcsLen
  rw [lcsLenF_comm, Nat.add_comm]

theorem lcsLen_self (xs : List Char) : lcsLen xs xs = xs.length := by
  unfold lcsLen
  exact lcsLenF_self _ xs (by omega)

theorem lcsLen_le_left (xs ys : List Char) : lcsLen xs ys ≤ xs.length :=
  lcsLenF_le_left _ xs ys

theorem lcsLen_le_right (xs ys : List Char) : lcsLen xs ys ≤ ys.length :=
  lcsLenF_le_right _ xs ys

theorem similarity_self (s : String) : _similarity s s = 1 := by
  unfold _similarity
  by_cases h : s.data.length + s.data.length = 0
  · rw [if_pos h]
  · rw [if_neg h, lcsLen_self, Rat.mkRat_eq_div]
    have hna : ((2 * (s.data.length : Int) : Int) : ℚ)
        = ((s.data.length + s.data.length : Nat) : ℚ) := by
      push_cast
      ring
    rw [hna]
    exact div_self (Nat.cast_ne_zero.mpr h)

theorem similarity_comm (a b : String) : _similarity a b = _similarity b a := by
  unfold _similarity
  rw [lcsLen_comm, Nat.add_comm b.data.length]

theorem similarity_nonneg (a b : String) : 0 ≤ _similarity a b := by
  unfold _similarity
  split
  · norm_num
  · rw [Rat.mkRat_eq_div]
    apply div_nonneg
    · push_cast
      positivity
    · positivity

theorem similarity_le_one (a b : String) : _similarity a b ≤ 1 := by
  unfold _similarity
  split
  · exact le_refl 1
  · rename_i h
    have hpos : (0 : ℚ) < ((a.data.length + b.data.length : Nat) : ℚ) := by
      exact_mod_cast Nat.pos_of_ne_zero h
    rw [Rat.mkRat_eq_div, div_le_one hpos]
    have h1 := lcsLen_le_left a.data b.data
    have h2 := lcsLen_le_right a.data b.data
    have h3 : 2 * lcsLen a.data b.data ≤ a.data.length + b.data.length := by
      omega
    push_cast
    exact_mod_cast h3

theorem similarity_disjoint (a b : String)
    (hne : a.data.length + b.data.length ≠ 0)
    (hdisj : ∀ c ∈ a.data, c ∉ b.data) : _similarity a b = 0 := by
  unfold _similarity
  rw [if_neg hne]
  unfold lcsLen
  rw [lcsLenF_disjoint _ _ _ hdisj]
  simp [Rat.mkRat_eq_div]


theorem clamp05_bounds (n : Int) : 0 ≤ clamp05 n ∧ clamp05 n ≤ 5 := by
  unfold clamp05
  split_ifs <;> omega

theorem mem_TYPE_KEYS (k : TypeKey) : k ∈ TYPE_KEYS := by
  cases k <;> decide

theorem bonusLoopAux_invariant (raw : TypeKey → Int) (d : TypeKey → Option BonusVal) :
    ∀ (ks : List TypeKey) (bonus final : TypeKey → Int),
      (∀ k, 0 ≤ bonus k ∧ bonus k ≤ 5 ∧ final k = raw k + bonus k) →
      ∀ b f, bonusLoopAux raw d ks bonus final = Except.ok (b, f) →
      ∀ k, 0 ≤ b k ∧ b k ≤ 5 ∧ f k = raw k + b k := by
  intro ks
  induction ks with
  | nil =>
    intro bonus final hinv b f h k
    simp only [bonusLoopAux, Except.ok.injEq, Prod.mk.injEq] at h
    rw [← h.1, ← h.2]
    exact hinv k
  | cons j ks ih =>
    intro bonus final hinv b f h k
    simp only [bonusLoopAux] at h
    cases hc : coerceBonus (d j) with
    | error e =>
      rw [hc] at h
      simp at h
    | ok n =>
      rw [hc] at h
      refine ih _ _ ?_ b f h k
      intro x
      by_cases hx : x = j
      · subst hx
        simp only [Function.update_same]
        exact ⟨(clamp05_bounds n).1, (clamp05_bounds n).2, by trivial⟩
      · simp only [Function.update_noteq hx]
        exact hinv x

/-- C2: whatever the external bonus candidate looks like, the stored
bonus for every type key is an integer in the range 0 to 5, and the
stored final score of every type key is its raw score plus its bonus,
hence at least its raw score. -/
theorem bonus_invariant_final_eq_raw_add_bonus (raw : TypeKey → Int)
    (bd : BonusData) (k : TypeKey) :
    0 ≤ (applyBonus raw bd).1 k ∧ (applyBonus raw bd).1 k ≤ 5
    ∧ (applyBonus raw bd).2 k = raw k + (applyBonus raw bd).1 k
    ∧ raw k ≤ (applyBonus raw bd).2 k := by
  cases bd with
  | absent => simp [applyBonus]
  | notDict => simp [applyBonus]
  | dict d =>
    cases hL : bonusLoopAux raw d TYPE_KEYS (fun _ => 0) raw with
    | ok r =>
      obtain ⟨b, f⟩ := r
      have happ : applyBonus raw (BonusData.dict d) = (b, f) := by
        simp only [applyBonus, hL]
      obtain ⟨h1, h2, h3⟩ := bonusLoopAux_invariant raw d TYPE_KEYS (fun _ => 0) raw
        (by intro x; simp) b f hL k
      rw [happ]
      exact ⟨h1, h2, h3, by show raw k ≤ f k; omega⟩
    | error e =>
      have happ : applyBonus raw (BonusData.dict d) = (fun _ => 0, raw) := by
        simp only [applyBonus, hL]
      rw [happ]
      refine ⟨by simp, by simp, by simp, by simp⟩

theorem coerceBonus_bad_iff (v : Option BonusVal) :
    coerceBonus v = Except.error () ↔ v = some BonusVal.bad := by
  cases v with
  | none => simp [coerceBonus]
  | some w => cases w <;> simp [coerceBonus]

theorem coerceBonus_ok (v : Option BonusVal) (h : v ≠ some BonusVal.bad) :
    coerceBonus v = Except.ok (bonusValue v) := by
  cases v with
  | none => rfl
  | some w =>
    cases w with
    | ival n => rfl
    | bad => exact absurd rfl h

theorem bonusLoopAux_error (raw : TypeKey → Int) (d : TypeKey → Option BonusVal) :
    ∀ (ks : List TypeKey) (bonus final : TypeKey → Int) (k : TypeKey),
      k ∈ ks → d k = some BonusVal.bad →
      bonusLoopAux raw d ks bonus final = Except.error () := by
  intro ks
  induction ks with
  | nil =>
    intro bonus final k hk
    simp at hk
  | cons j ks ih =>
    intro bonus final k hk hbad
    simp only [bonusLoopAux]
    cases hc : coerceBonus (d j) with
    | error e => rfl
    | ok n =>
      rcases List.mem_cons.mp hk with h | h
      · subst h
        rw [(coerceBonus_bad_iff (d k)).mpr hbad] at hc
        cases hc
      · exact ih _ _ k h hbad

theorem bonusLoopAux_ok_char (raw : TypeKey → Int) (d : TypeKey → Option BonusVal) :
    ∀ (ks : List TypeKey) (bonus final : TypeKey → Int),
      (∀ k ∈ ks, d k ≠ some BonusVal.bad) →
      ∃ b f, bonusLoopAux raw d ks bonus final = Except.ok (b, f)
        ∧ (∀ j ∈ ks, b j = clamp05 (bonusValue (d j))
            ∧ f j = raw j + clamp05 (bonusValue (d j)))
        ∧ (∀ j, j ∉ ks → b j = bonus j ∧ f j = final j) := by
  intro ks
  induction ks with
  | nil =>
    intro bonus final _
    exact ⟨bonus, final, rfl, by simp, fun j _ => ⟨rfl, rfl⟩⟩
  | cons k ks ih =>
    intro bonus final hgood
    obtain ⟨b, f, heq, hin, hout⟩ := ih
      (Function.update bonus k (clamp05 (bonusValue (d k))))
      (Function.update final k (raw k + clamp05 (bonusValue (d k))))
      (fun j hj => hgood j (List.mem_cons_of_mem k hj))
    refine ⟨b, f, ?_, ?_, ?_⟩
    · simp only [bonusLoopAux, coerceBonus_ok (d k) (hgood k (List.mem_cons_self k ks))]
      exact heq
    · intro j hj
      by_cases hjk : j ∈ ks
      · exact hin j hjk
      · rcases List.mem_cons.mp hj with h | h
        · subst h
          have := hout j hjk
          rw [this.1, this.2, Function.update_same, Function.update_same]
          exact ⟨rfl, rfl⟩
        · exact absurd h hjk
    · intro j hj
      have hjk : j ≠ k := fun h => hj (h ▸ List.mem_cons_self k ks)
      have hjs : j ∉ ks := fun h => hj (List.mem_cons_of_mem k h)
      have := hout j hjs
      rw [this.1, this.2, Function.update_noteq hjk, Function.update_noteq hjk]
      exact ⟨rfl, rfl⟩

/-- C1 counterexample: the claim says that the absence of a type key
in the bonus candidate makes the whole bonus application fail with
every bonus 0 and final equal to raw. In the code a missing key
defaults to 0 for that key: with a candidate carrying only sage at 3
and every other key absent, the stored sage bonus is 3 and the sage
final score differs from its raw score. -/
theorem applyBonus_absent_key_not_total_failure :
    (applyBonus (fun _ => 0)
        (BonusData.dict (fun k => if k = TypeKey.sage then some (BonusVal.ival 3) else none))).1
      TypeKey.sage = 3
    ∧ (applyBonus (fun _ => 0)
        (BonusData.dict (fun k => if k = TypeKey.sage then some (BonusVal.ival 3) else none))).2
      TypeKey.sage ≠ 0 := by
  decide

/-- C1 (amended): the all-or-nothing failure of the bonus application
is triggered exactly by a coercion failure of some present value (the
int call raising inside the try block): then every bonus is 0 and the
final scores equal the raw scores. The absence of a key is not a
failure: it defaults that key alone to bonus 0, and when no value
fails to coerce every key receives its clamped candidate value. -/
theorem applyBonus_atomic_on_coercion_failure (raw : TypeKey → Int)
    (d : TypeKey → Option BonusVal) :
    ((∃ k, d k = some BonusVal.bad) →
      (∀ j, (applyBonus raw (BonusData.dict d)).1 j = 0)
      ∧ (∀ j, (applyBonus raw (BonusData.dict d)).2 j = raw j))
    ∧ ((∀ k, d k ≠ some BonusVal.bad) →
      ∀ j, (applyBonus raw (BonusData.dict d)).1 j = clamp05 (bonusValue (d j))
        ∧ (applyBonus raw (BonusData.dict d)).2 j
            = raw j + clamp05 (bonusValue (d j))) := by
  constructor
  · rintro ⟨k, hk⟩
    have herr := bonusLoopAux_error raw d TYPE_KEYS (fun _ => 0) raw k (mem_TYPE_KEYS k) hk
    have happ : applyBonus raw (BonusData.dict d) = (fun _ => 0, raw) := by
      simp only [applyBonus, herr]
    rw [happ]
    exact ⟨fun j => rfl, fun j => rfl⟩
  · intro hgood j
    obtain ⟨b, f, heq, hin, _⟩ :=
      bonusLoopAux_ok_char raw d TYPE_KEYS (fun _ => 0) raw (fun k _ => hgood k)
    have happ : applyBonus raw (BonusData.dict d) = (b, f) := by
      simp only [applyBonus, heq]
    rw [happ]
    exact hin j (mem_TYPE_KEYS j)

/-- Witness for the amended C1 at a concrete failing candidate. -/
theorem applyBonus_atomic_on_coercion_failure_witness :
    (applyBonus (fun _ => 1) (BonusData.dict (fun _ => some BonusVal.bad))).1
      TypeKey.monk = 0 :=
  ((applyBonus_atomic_on_coercion_failure (fun _ => 1)
      (fun _ => some BonusVal.bad)).1 ⟨TypeKey.sage, rfl⟩).1 TypeKey.monk

/-- C9: lifecycle of a quest progress row. A not started row opened
moves to in progress with its start time set; opening an already
started or completed row changes nothing. Completing always yields a
completed row with the completion time refreshed, back-filling the
start time only when unset; repeated completion refreshes the
completion time again, and no transition of the component leaves the
completed state. -/
theorem progress_state_machine_spec (now now2 : Nat) (p : Progress) :
    (p.status = PStatus.not_started →
      openQ now p = { status := PStatus.in_progress, started_at := some now,
                      completed_at := p.completed_at })
    ∧ (p.status ≠ PStatus.not_started → openQ now p = p)
    ∧ (completeQ now p).status = PStatus.completed
    ∧ (completeQ now p).completed_at = some now
    ∧ (p.started_at = none → (completeQ now p).started_at = some now)
    ∧ (∀ t, p.started_at = some t → (completeQ now p).started_at = some t)
    ∧ (completeQ now2 (completeQ now p)).completed_at = some now2
    ∧ (p.status = PStatus.completed →
        (openQ now p).status = PStatus.completed
        ∧ (completeQ now p).status = PStatus.completed) := by
  refine ⟨fun h => ?_, fun h => ?_, rfl, rfl, fun h => ?_, fun t h => ?_, rfl, fun h => ?_⟩
  · simp [openQ, h]
  · simp [openQ, h]
  · simp [completeQ, h]
  · simp [completeQ, h]
  · exact ⟨by simp [openQ, h], rfl⟩

/-- Witness for C9 on a fresh row. -/
theorem progress_state_machine_spec_witness :
    openQ 0 { status := PStatus.not_started, started_at := none, completed_at := none }
      = { status := PStatus.in_progress, started_at := some 0, completed_at := none }
    ∧ (completeQ 5 { status := PStatus.not_started, started_at := none, completed_at := none }).started_at = some 5 :=
  ⟨(progress_state_machine_spec 0 1
      { status := PStatus.not_started, started_at := none, completed_at := none }).1 rfl,
   (progress_state_machine_spec 5 1
      { status := PStatus.not_started, started_at := none, completed_at := none }).2.2.2.2.1 rfl⟩

theorem indexOf_typeIdx (j : TypeKey) : TYPE_KEYS.indexOf j = typeIdx j := by
  cases j <;> rfl

theorem pyMaxFrom_spec (final : TypeKey → Int) :
    ∀ (ks : List TypeKey) (best : TypeKey),
      (pyMaxFrom final best ks = best ∧ ∀ q ∈ ks, final q ≤ final best)
      ∨ (∃ pre p suf, ks = pre ++ p :: suf ∧ pyMaxFrom final best ks = p
          ∧ final best < final p ∧ (∀ q ∈ pre, final q < final p)
          ∧ (∀ q ∈ suf, final q ≤ final p)) := by
  intro ks
  induction ks with
  | nil => exact fun best => Or.inl ⟨rfl, by simp⟩
  | cons j ks ih =>
    intro best
    by_cases h : final best < final j
    · have hs : pyMaxFrom final best (j :: ks) = pyMaxFrom final j ks := by
        simp [pyMaxFrom, h]
      rcases ih j with ⟨heq, hall⟩ | ⟨pre, p, suf, hks, heq, hlt, hpre, hsuf⟩
      · right
        exact ⟨[], j, ks, by simp, hs.trans heq, h, by simp, hall⟩
      · right
        refine ⟨j :: pre, p, suf, by simp [hks], hs.trans heq, lt_trans h hlt, ?_, hsuf⟩
        intro q hq
        rcases List.mem_cons.mp hq with rfl | hq
        · exact hlt
        · exact hpre q hq
    · have hs : pyMaxFrom final best (j :: ks) = pyMaxFrom final best ks := by
        simp [pyMaxFrom, h]
      rcases ih best with ⟨heq, hall⟩ | ⟨pre, p, suf, hks, heq, hlt, hpre, hsuf⟩
      · left
        refine ⟨hs.trans heq, ?_⟩
        intro q hq
        rcases List.mem_cons.mp hq with rfl | hq
        · exact le_of_not_lt h
        · exact hall q hq
      · right
        refine ⟨j :: pre, p, suf, by simp [hks], hs.trans heq, hlt, ?_, hsuf⟩
        intro q hq
        rcases List.mem_cons.mp hq with rfl | hq
        · exact lt_of_le_of_lt (le_of_not_lt h) hlt
        · exact hpre q hq

/-- C3: the selected top type has a maximal final score, and among
type keys tied at that maximal score it is the one coming first in the
canonical TYPE_KEYS enumeration order. -/
theorem pickTopType_max_and_tiebreak (final : TypeKey → Int) (k : TypeKey) :
    final k ≤ final (pickTopType final)
    ∧ (final k = final (pickTopType final) →
        TYPE_KEYS.indexOf (pickTopType final) ≤ TYPE_KEYS.indexOf k) := by
  have hpick : pickTopType final = pyMaxFrom final TypeKey.sage TYPE_KEYS.tail := rfl
  have hcase : k = TypeKey.sage ∨ k ∈ TYPE_KEYS.tail := by
    cases k <;> decide
  have hpw : List.Pairwise (fun a b => typeIdx a < typeIdx b) TYPE_KEYS := by
    decide
  rcases pyMaxFrom_spec final TYPE_KEYS.tail TypeKey.sage with
    ⟨heq, hall⟩ | ⟨pre, p, suf, hks, heq, hlt, hpre, hsuf⟩
  · have hr : pickTopType final = TypeKey.sage := hpick.trans heq
    constructor
    · rw [hr]
      rcases hcase with rfl | hk
      · exact le_refl _
      · exact hall k hk
    · intro _
      rw [hr]
      simp only [indexOf_typeIdx, typeIdx]
      exact Nat.zero_le _
  · have hr : pickTopType final = p := hpick.trans heq
    constructor
    · rw [hr]
      rcases hcase with rfl | hk
      · exact le_of_lt hlt
      · rw [hks] at hk
        rcases List.mem_append.mp hk with h1 | h2
        · exact le_of_lt (hpre k h1)
        · rcases List.mem_cons.mp h2 with rfl | h3
          · exact le_refl _
          · exact hsuf k h3
    · intro hkeq
      rw [hr] at hkeq ⊢
      rcases hcase with rfl | hk
      · exact absurd hkeq (ne_of_lt hlt)
      · rw [hks] at hk
        rcases List.mem_append.mp hk with h1 | h2
        · exact absurd hkeq (ne_of_lt (hpre k h1))
        · rcases List.mem_cons.mp h2 with rfl | h3
          · exact le_refl _
          · have hTK : TYPE_KEYS = TypeKey.sage :: (pre ++ p :: suf) := by
              rw [← hks]
              rfl
            rw [hTK] at hpw
            have h4 := (List.pairwise_cons.mp hpw).2
            have h5 := (List.pairwise_append.mp h4).2.1
            have h6 := (List.pairwise_cons.mp h5).1 k h3
            simp only [indexOf_typeIdx]
            exact le_of_lt h6

/-- Witness for C3: with sage and priest tied at the maximum, the
selected top type is sage, the earlier of the two in the
enumeration. -/
theorem pickTopType_max_and_tiebreak_witness :
    TYPE_KEYS.indexOf
        (pickTopType (fun k => if k = TypeKey.priest then 9 else if k = TypeKey.sage then 9 else 0))
      ≤ TYPE_KEYS.indexOf TypeKey.priest :=
  (pickTopType_max_and_tiebreak
      (fun k => if k = TypeKey.priest then 9 else if k = TypeKey.sage then 9 else 0)
      TypeKey.priest).2 (by decide)

theorem choiceScore_le_three (s : String) : choiceScore s ≤ 3 := by
  simp only [choiceScore, CHOICE_TO_SCORE, List.lookup]
  cases s == "yes" <;> cases s == "maybe" <;> cases s == "neutral" <;>
    cases s == "no" <;> simp

/-- C7: the answer weights are yes 3, maybe 1, neutral 1, no 0, with
every other label weighted 0; an index beyond the assignment list
falls back to the TYPE_KEYS entry at index mod 8, so the lookup is
total; and with all 32 questions answered yes every type key scores
3 times 4 equals 12. -/
theorem rawScores_weights_and_allyes :
    (choiceScore "yes" = 3 ∧ choiceScore "maybe" = 1 ∧ choiceScore "neutral" = 1
      ∧ choiceScore "no" = 0)
    ∧ (∀ s, s ≠ "yes" → s ≠ "maybe" → s ≠ "neutral" → s ≠ "no" → choiceScore s = 0)
    ∧ (∀ i, QUESTION_TYPES.length ≤ i →
        assignType i = TYPE_KEYS.get ⟨i % TYPE_KEYS.length, Nat.mod_lt _ (by decide)⟩)
    ∧ (∀ k, rawScores NUM_QUESTIONS (fun _ => "yes") k = 12) := by
  refine ⟨by decide, ?_, ?_, ?_⟩
  · intro s h1 h2 h3 h4
    have hb1 : (s == "yes") = false := by simp [h1]
    have hb2 : (s == "maybe") = false := by simp [h2]
    have hb3 : (s == "neutral") = false := by simp [h3]
    have hb4 : (s == "no") = false := by simp [h4]
    simp [choiceScore, CHOICE_TO_SCORE, List.lookup, hb1, hb2, hb3, hb4]
  · intro i hi
    unfold assignType
    rw [dif_neg (Nat.not_lt.mpr hi)]
  · intro k
    cases k <;> decide

/-- Witness for C7 at an unknown label and an out-of-range index. -/
theorem rawScores_weights_and_allyes_witness :
    choiceScore "banana" = 0 ∧ assignType 35 = TypeKey.mage :=
  ⟨rawScores_weights_and_allyes.2.1 "banana" (by decide) (by decide) (by decide) (by decide),
   (rawScores_weights_and_allyes.2.2.1 35 (by decide)).trans (by decide)⟩

theorem sumScores_update (m : TypeKey → Nat) (k : TypeKey) (v : Nat) :
    sumScores (Function.update m k (m k + v)) = sumScores m + v := by
  cases k <;> simp [sumScores, TYPE_KEYS, Function.update] <;> omega

theorem rawScores_succ (n : Nat) (answers : Nat → String) :
    rawScores (n + 1) answers
      = Function.update (rawScores n answers) (assignType n)
          (rawScores n answers (assignType n) + choiceScore (answers n)) := by
  unfold rawScores
  rw [List.range_succ, List.foldl_append]
  rfl

theorem rawScores_total (numQ : Nat) (answers : Nat → String) :
    sumScores (rawScores numQ answers)
      = ((List.range numQ).map (fun i => choiceScore (answers i))).sum := by
  induction numQ with
  | zero => simp [rawScores, sumScores, TYPE_KEYS]
  | succ n ih =>
    rw [rawScores_succ, sumScores_update, ih, List.range_succ, List.map_append,
      List.sum_append]
    simp

/-- C10: each question contributes its weight to exactly one type key,
so the raw scores of the 8 type keys sum to the total weight of all
answers, which is at most 3 per question. -/
theorem rawScores_conservation (numQ : Nat) (answers : Nat → String) :
    sumScores (rawScores numQ answers)
      = ((List.range numQ).map (fun i => choiceScore (answers i))).sum
    ∧ sumScores (rawScores numQ answers) ≤ 3 * numQ := by
  refine ⟨rawScores_total numQ answers, ?_⟩
  rw [rawScores_total numQ answers]
  calc ((List.range numQ).map (fun i => choiceScore (answers i))).sum
      ≤ ((List.range numQ).map (fun i => choiceScore (answers i))).length * 3 := by
        apply List.sum_le_card_nsmul
        intro x hx
        obtain ⟨i, _, hix⟩ := List.mem_map.mp hx
        rw [← hix]
        exact choiceScore_le_three (answers i)
    _ = 3 * numQ := by
        rw [List.length_map, List.length_range]
        omega

/-- C5 counterexample: two empty strings have (vacuously) disjoint
character sets, yet the similarity function returns 1.0 for them, not
0.0, because the ratio of two empty strings is defined as 1.0. -/
theorem similarity_empty_empty_not_zero :
    (∀ c ∈ "".data, c ∉ "".data) ∧ _similarity "" "" ≠ 0 := by
  constructor
  · intro c hc
    simp at hc
  · decide

/-- C5 (amended): the similarity function is reflexive with value 1,
symmetric, always lies between 0 and 1, and two strings with disjoint
character sets score 0 provided they are not both empty (both empty
scores 1 by the ratio convention). -/
theorem similarity_contract (a b : String) :
    _similarity a a = 1
    ∧ _similarity a b = _similarity b a
    ∧ 0 ≤ _similarity a b
    ∧ _similarity a b ≤ 1
    ∧ (a.data.length + b.data.length ≠ 0 →
        (∀ c ∈ a.data, c ∉ b.data) → _similarity a b = 0) :=
  ⟨similarity_self a, similarity_comm a b, similarity_nonneg a b,
   similarity_le_one a b, fun hne hd => similarity_disjoint a b hne hd⟩

/-- Witness for C5 on two concrete disjoint strings. -/
theorem similarity_contract_witness : _similarity "abc" "xyz" = 0 :=
  (similarity_contract "abc" "xyz").2.2.2.2 (by decide) (by decide)

theorem scanBest_spec (target : String) :
    ∀ (ps : List KaiLog) (i : Nat) (best : Option (Nat × KaiLog)) (bs : ℚ),
      (scanBest target ps i best bs = (best, bs)
        ∧ ∀ q ∈ ps, _similarity q.name target ≤ bs)
      ∨ (∃ pre p suf, ps = pre ++ p :: suf
          ∧ scanBest target ps i best bs
              = (some (i + pre.length, p), _similarity p.name target)
          ∧ bs < _similarity p.name target
          ∧ (∀ q ∈ pre, _similarity q.name target < _similarity p.name target)
          ∧ (∀ q ∈ suf, _similarity q.name target ≤ _similarity p.name target)) := by
  intro ps
  induction ps with
  | nil => exact fun i best bs => Or.inl ⟨rfl, by simp⟩
  | cons q ps ih =>
    intro i best bs
    by_cases h : bs < _similarity q.name target
    · have hs : scanBest target (q :: ps) i best bs
          = scanBest target ps (i + 1) (some (i, q)) (_similarity q.name target) := by
        simp [scanBest, h]
      rcases ih (i + 1) (some (i, q)) (_similarity q.name target) with
        ⟨heq, hall⟩ | ⟨pre, p, suf, hps, heq, hlt, hpre, hsuf⟩
      · right
        refine ⟨[], q, ps, by simp, ?_, h, by simp, hall⟩
        rw [hs, heq]
        simp
      · right
        refine ⟨q :: pre, p, suf, by simp [hps], ?_, lt_trans h hlt, ?_, hsuf⟩
        · rw [hs, heq]
          have harith : i + 1 + pre.length = i + (q :: pre).length := by
            simp [List.length_cons]
            omega
          rw [harith]
        · intro x hx
          rcases List.mem_cons.mp hx with rfl | hx
          · exact hlt
          · exact hpre x hx
    · have hs : scanBest target (q :: ps) i best bs = scanBest target ps (i + 1) best bs := by
        simp [scanBest, h]
      rcases ih (i + 1) best bs with
        ⟨heq, hall⟩ | ⟨pre, p, suf, hps, heq, hlt, hpre, hsuf⟩
      · left
        refine ⟨hs.trans heq, ?_⟩
        intro x hx
        rcases List.mem_cons.mp hx with rfl | hx
        · exact le_of_not_lt h
        · exact hall x hx
      · right
        refine ⟨q :: pre, p, suf, by simp [hps], ?_, hlt, ?_, hsuf⟩
        · rw [hs, heq]
          have harith : i + 1 + pre.length = i + (q :: pre).length := by
            simp [List.length_cons]
            omega
          rw [harith]
        · intro x hx
          rcases List.mem_cons.mp hx with rfl | hx
          · exact lt_of_le_of_lt (le_of_not_lt h) hlt
          · exact hpre x hx

/-- C6 counterexample: the claim says the best entry is returned
exactly when its score reaches the threshold, for any threshold. With
one existing entry, a candidate of disjoint characters (score 0) and
threshold 0, the best score 0 does reach the threshold, yet the
function returns none, because a best entry is only picked on a score
strictly above the initial 0.0. -/
theorem find_similar_kai_zero_score_returns_none :
    find_similar_kai [{ name := "b", count := 1 }] "a" 0 = none
    ∧ (0 : ℚ) ≤ _similarity "b" (pyStrip "a") := by
  constructor
  · decide
  · decide

/-- C6 (amended): on a blank candidate the deduplicator returns none.
When it returns an entry, that entry is one of the logs, its score is
strictly positive and at least the threshold, no log scores higher,
and every log before it in iteration order scores strictly lower (so
ties keep the first encountered). When it returns none although the
candidate is non-blank, every log either misses the threshold or
scores no better than the initial best score 0. -/
theorem find_similar_kai_spec (logs : List KaiLog) (name : String) (t : ℚ) :
    (pyStrip name = "" → find_similar_kai logs name t = none)
    ∧ (∀ log, find_similar_kai logs name t = some log →
        log ∈ logs
        ∧ 0 < _similarity log.name (pyStrip name)
        ∧ t ≤ _similarity log.name (pyStrip name)
        ∧ (∀ l ∈ logs, _similarity l.name (pyStrip name) ≤ _similarity log.name (pyStrip name))
        ∧ ∃ pre suf, logs = pre ++ log :: suf
            ∧ ∀ l ∈ pre, _similarity l.name (pyStrip name) < _similarity log.name (pyStrip name))
    ∧ (pyStrip name ≠ "" → find_similar_kai logs name t = none →
        ∀ l ∈ logs, _similarity l.name (pyStrip name) < t
          ∨ _similarity l.name (pyStrip name) ≤ 0) := by
  by_cases hblank : pyStrip name = ""
  · refine ⟨fun _ => ?_, fun log hlog => ?_, fun hne => absurd hblank hne⟩
    · simp [find_similar_kai, find_similar_idx, hblank]
    · simp [find_similar_kai, find_similar_idx, hblank] at hlog
  · rcases scanBest_spec (pyStrip name) logs 0 none 0 with
      ⟨heq, hall⟩ | ⟨pre, p, suf, hps, heq, hlt, hpre, hsuf⟩
    · have hnone : find_similar_kai logs name t = none := by
        simp [find_similar_kai, find_similar_idx, hblank, heq]
      refine ⟨fun h => absurd h hblank, fun log hlog => ?_, fun _ _ l hl => ?_⟩
      · rw [hnone] at hlog
        cases hlog
      · exact Or.inr (hall l hl)
    · have hscan : scanBest (pyStrip name) logs 0 none 0
          = (some (pre.length, p), _similarity p.name (pyStrip name)) := by
        rw [heq]
        simp
      by_cases hth : t ≤ _similarity p.name (pyStrip name)
      · have hsome : find_similar_kai logs name t = some p := by
          simp [find_similar_kai, find_similar_idx, hblank, hscan, hth]
        refine ⟨fun h => absurd h hblank, fun log hlog => ?_, fun _ hnone => ?_⟩
        · rw [hsome] at hlog
          injection hlog with hlog
          subst hlog
          refine ⟨?_, hlt, hth, ?_, pre, suf, hps, hpre⟩
          · rw [hps]
            exact List.mem_append.mpr (Or.inr (List.mem_cons_self p suf))
          · intro l hl
            rw [hps] at hl
            rcases List.mem_append.mp hl with h1 | h2
            · exact le_of_lt (hpre l h1)
            · rcases List.mem_cons.mp h2 with rfl | h3
              · exact le_refl _
              · exact hsuf l h3
        · rw [hsome] at hnone
          cases hnone
      · have hnone : find_similar_kai logs name t = none := by
          simp [find_similar_kai, find_similar_idx, hblank, hscan, hth]
        refine ⟨fun h => absurd h hblank, fun log hlog => ?_, fun _ _ l hl => ?_⟩
        · rw [hnone] at hlog
          cases hlog
        · left
          have hmax : _similarity l.name (pyStrip name) ≤ _similarity p.name (pyStrip name) := by
            rw [hps] at hl
            rcases List.mem_append.mp hl with h1 | h2
            · exact le_of_lt (hpre l h1)
            · rcases List.mem_cons.mp h2 with rfl | h3
              · exact le_refl _
              · exact hsuf l h3
          exact lt_of_le_of_lt hmax (lt_of_not_le hth)

/-- Witness for C6: a one-letter variant of an existing habit phrase
is matched at the default threshold. -/
theorem find_similar_kai_spec_witness :
    mkRat 7 10 ≤ _similarity "swim" (pyStrip "swiming") :=
  ((find_similar_kai_spec [{ name := "swim", count := 3 }] "swiming" (mkRat 7 10)).2.1
    { name := "swim", count := 3 } (by decide)).2.2.1

/-- C8: in the batch loop of journal save, an entry created for an
earlier candidate joins the scan set used for every later candidate of
the same batch; hence two mutually similar phrases submitted together
(the extraction step hands the loop already stripped, non-blank
phrases) collapse onto one new entry whose count reaches 2, instead of
creating two separate rows. -/
theorem processKai_batch_dedup :
    (∀ (logs : List KaiLog) (a : String) (rest : List String),
        pyStrip a ≠ "" →
        find_similar_idx logs (pyStrip a) (mkRat 7 10) = none →
        processKai logs (a :: rest)
          = processKai (logs ++ [{ name := pyStrip a, count := 1 }]) rest)
    ∧ (∀ a b : String, pyStrip a = a → pyStrip b = b → a ≠ "" → b ≠ "" →
        mkRat 7 10 ≤ _similarity a b →
        processKai [] [a, b] = [{ name := a, count := 2 }]) := by
  constructor
  · intro logs a rest ha hfind
    simp only [processKai]
    rw [if_neg ha, hfind]
  · intro a b ha hb ha0 hb0 hsim
    have hpos : (0 : ℚ) < _similarity a b :=
      lt_of_lt_of_le (by decide) hsim
    have h1 : find_similar_idx [] a (mkRat 7 10) = none := by
      simp [find_similar_idx, ha, ha0, scanBest]
    have h2 : find_similar_idx [{ name := a, count := 1 }] b (mkRat 7 10)
        = some (0, { name := a, count := 1 }) := by
      simp only [find_similar_idx, hb]
      rw [if_neg hb0]
      simp only [scanBest]
      rw [if_pos hpos]
      simp only [scanBest]
      rw [if_pos hsim]
    have step1 : processKai [] [a, b] = processKai [{ name := a, count := 1 }] [b] := by
      simp only [processKai, ha]
      rw [if_neg ha0, h1]
      simp
    have step2 : processKai [{ name := a, count := 1 }] [b]
        = [{ name := a, count := 2 }] := by
      simp only [processKai, hb]
      rw [if_neg hb0, h2]
      rfl
    rw [step1, step2]

/-- Witness for C8: the phrases swim and swam (similarity 3/4, above
the 0.7 threshold) collapse onto one entry counted twice. -/
theorem processKai_batch_dedup_witness :
    processKai [] ["swim", "swam"] = [{ name := "swim", count := 2 }] :=
  processKai_batch_dedup.2 "swim" "swam" (by decide) (by decide) (by decide)
    (by decide) (by decide)

theorem roundKind_mem (v : PyVal) :
    roundKind v = "text" ∨ roundKind v = "grid" ∨ roundKind v = "choice" := by
  cases v with
  | pstr t =>
    simp only [roundKind]
    split_ifs with h
    · exact h
    · exact Or.inl rfl
  | pint n => exact Or.inl rfl
  | pbool b => exact Or.inl rfl
  | pnone => exact Or.inl rfl
  | plist xs => exact Or.inl rfl
  | pdict fs => exact Or.inl rfl

theorem pyEqStr_eq (v : PyVal) (s : String) (h : pyEqStr v s = true) :
    v = PyVal.pstr s := by
  cases v <;> simp_all [pyEqStr]

/-- C4 counterexample: a structured record that explicitly declares
kind grid with a negative row count and no columns, and one that
declares kind choice with no options, pass through normalization
keeping those kinds: the resulting steps have kind grid with
gridRows equal to -1 (negative, not positive) and kind choice with
empty options, contradicting the claimed invariant. -/
theorem normalizeSteps_declared_kind_violates_invariant :
    normalizeSteps (PyVal.plist
        [PyVal.pdict [("type", PyVal.pstr "grid"), ("rows", PyVal.pint (-1))],
         PyVal.pdict [("type", PyVal.pstr "choice")]])
      = [{ title := PyVal.pstr "", kind := "grid", grid_rows := -1, grid_cols := 0, options := [] },
         { title := PyVal.pstr "", kind := "choice", grid_rows := 0, grid_cols := 0, options := [] }]
    ∧ (-1 : Int) < 0 :=
  ⟨rfl, by decide⟩

/-- C4 (amended): every normalized step has kind text, grid or choice;
any kind value outside that set coerces to text — a structured record
whose kind after inference is a string other than text, grid or
choice, or not a string at all, yields kind text; a bare string
becomes a text step with zero dimensions and no options; and when the
declared kind of a structured record is text, the invariant holds for
what inference produces: an inferred grid has both dimensions positive
and an inferred choice has non-empty options. A record that explicitly
declares grid or choice keeps that kind even with missing, zero,
negative or non-numeric supporting data. -/
theorem normalizeSteps_kind_invariant :
    (∀ (raw : PyVal) (s : CanonicalStep), s ∈ normalizeSteps raw →
        s.kind = "text" ∨ s.kind = "grid" ∨ s.kind = "choice")
    ∧ (∀ (fs : List (String × PyVal)) (s : CanonicalStep),
        normalizeStep (PyVal.pdict fs) = some s →
        (∀ t, inferredKind fs = PyVal.pstr t →
            t ≠ "text" → t ≠ "grid" → t ≠ "choice" → s.kind = "text")
        ∧ ((∀ u, inferredKind fs ≠ PyVal.pstr u) → s.kind = "text"))
    ∧ (∀ t, normalizeStep (PyVal.pstr t)
        = some { title := PyVal.pstr t, kind := "text", grid_rows := 0, grid_cols := 0, options := [] })
    ∧ (∀ (fs : List (String × PyVal)) (s : CanonicalStep),
        normalizeStep (PyVal.pdict fs) = some s →
        pyEqStr (resolvedKind fs) "text" = true →
        (s.kind = "grid" → 0 < s.grid_rows ∧ 0 < s.grid_cols)
        ∧ (s.kind = "choice" → s.options ≠ [])) := by
  refine ⟨?_, ?_, fun t => rfl, ?_⟩
  · intro raw s hs
    unfold normalizeSteps at hs
    cases hpo : pyOr raw (PyVal.plist []) with
    | plist xs =>
      rw [hpo] at hs
      obtain ⟨v, _, hns⟩ := List.mem_filterMap.mp hs
      cases v with
      | pstr t =>
        simp only [normalizeStep, Option.some.injEq] at hns
        rw [← hns]
        exact Or.inl rfl
      | pdict fs =>
        simp only [normalizeStep, Option.some.injEq] at hns
        rw [← hns]
        exact roundKind_mem (inferredKind fs)
      | pint n => cases hns
      | pbool b => cases hns
      | pnone => cases hns
      | plist ys => cases hns
    | pstr t =>
      rw [hpo] at hs
      cases hs
    | pint n =>
      rw [hpo] at hs
      cases hs
    | pbool b =>
      rw [hpo] at hs
      cases hs
    | pnone =>
      rw [hpo] at hs
      cases hs
    | pdict fs =>
      rw [hpo] at hs
      cases hs
  · intro fs s hns
    simp only [normalizeStep, Option.some.injEq] at hns
    subst hns
    have hkind : (stepOfDict fs).kind = roundKind (inferredKind fs) := rfl
    constructor
    · intro t ht h1 h2 h3
      rw [hkind, ht]
      simp only [roundKind]
      rw [if_neg]
      intro h
      rcases h with h | h | h
      · exact h1 h
      · exact h2 h
      · exact h3 h
    · intro hnostr
      rw [hkind]
      cases hik : inferredKind fs with
      | pstr u => exact absurd hik (hnostr u)
      | pint n => rfl
      | pbool b => rfl
      | pnone => rfl
      | plist xs => rfl
      | pdict gs => rfl
  · intro fs s hns hdecl
    simp only [normalizeStep, Option.some.injEq] at hns
    subst hns
    have hk := pyEqStr_eq _ _ hdecl
    have hkind : (stepOfDict fs).kind = roundKind (inferredKind fs) := rfl
    constructor
    · intro hg
      rw [hkind] at hg
      unfold inferredKind at hg
      split_ifs at hg with h1 h2
      · simp [roundKind] at hg
      · exact ⟨h2.1, h2.2.1⟩
      · rw [hk] at hg
        simp [roundKind] at hg
    · intro hc
      rw [hkind] at hc
      unfold inferredKind at hc
      split_ifs at hc with h1 h2
      · intro he
        have h1e := h1.1
        have hoe : (stepOfDict fs).options = resolvedOptions fs := rfl
        rw [hoe] at he
        rw [he] at h1e
        simp at h1e
      · simp [roundKind] at hc
      · rw [hk] at hc
        simp [roundKind] at hc

/-- Witness for C4 on a bare-string step and on a record declaring the
unrecognized kind quiz, which coerces to text. -/
theorem normalizeSteps_kind_invariant_witness :
    (({ title := PyVal.pstr "Do a thing", kind := "text", grid_rows := 0, grid_cols := 0, options := [] } : CanonicalStep).kind = "text"
      ∨ ({ title := PyVal.pstr "Do a thing", kind := "text", grid_rows := 0, grid_cols := 0, options := [] } : CanonicalStep).kind = "grid"
      ∨ ({ title := PyVal.pstr "Do a thing", kind := "text", grid_rows := 0, grid_cols := 0, options := [] } : CanonicalStep).kind = "choice")
    ∧ (stepOfDict [("type", PyVal.pstr "quiz")]).kind = "text" :=
  ⟨normalizeSteps_kind_invariant.1 (PyVal.plist [PyVal.pstr "Do a thing"])
      { title := PyVal.pstr "Do a thing", kind := "text", grid_rows := 0, grid_cols := 0, options := [] }
      (List.mem_singleton.mpr rfl),
   (normalizeSteps_kind_invariant.2.1 [("type", PyVal.pstr "quiz")]
      (stepOfDict [("type", PyVal.pstr "quiz")]) rfl).1 "quiz" rfl
      (by decide) (by decide) (by decide)⟩
